import Mathlib

/-!
Shallow embedding of the Container-Package-Loader packing core
(`src/services/packing.worker.ts`, the canonical worker/GA variant, plus the
coordinator in `src/services/packingService.ts`).

Numbers are modelled as rationals (the source uses JS floating-point numbers;
the spec treats dimensions as reals in cm).  Item quantities are natural
numbers.  Instance ids are strings built exactly as in the source by
concatenating the package id, a dash and the decimal index.
-/

namespace Packing

/-- `Dimensions` from `types.ts`: length = depth (z), width = x, height = y. -/
structure Dimensions where
  length : ℚ
  width : ℚ
  height : ℚ
deriving DecidableEq, Repr

/-- `PackageType` from `types.ts` (worker variant, with `keepUpright`). -/
structure PackageType where
  id : String
  name : String
  dimensions : Dimensions
  quantity : Option ℕ
  color : String
  keepUpright : Bool
deriving DecidableEq, Repr

/-- `ItemToPack` from `packing.worker.ts`: one concrete instance of a type. -/
structure ItemToPack where
  type : PackageType
  id : String
  vol : ℚ
deriving DecidableEq, Repr

/-- `Anchor` from `packing.worker.ts`: a candidate insertion point. -/
structure Anchor where
  x : ℚ
  y : ℚ
  z : ℚ
deriving DecidableEq, Repr

/-- `PlacedItem` from `types.ts`. -/
structure PlacedItem where
  x : ℚ
  y : ℚ
  z : ℚ
  width : ℚ
  height : ℚ
  length : ℚ
  packageId : String
  color : String
  label : String
deriving DecidableEq, Repr

/-- The fold step of the dedup loop in `getOrientations`: push `opt` unless an
equal triple was already seen (the source keys the seen-set by the
`length-width-height` string, which identifies triples exactly). -/
def pushUnique (acc : List Dimensions) (opt : Dimensions) : List Dimensions :=
  if opt ∈ acc then acc else acc ++ [opt]

/-- `getOrientations` from `packing.worker.ts` lines 48-72: the six axis
assignments of the box's dimensions, filtered to height-preserving ones when
`keepUpright` is set (tolerance 0.1), then deduplicated in order. -/
def getOrientations (pkg : PackageType) : List Dimensions :=
  let l := pkg.dimensions.length
  let w := pkg.dimensions.width
  let h := pkg.dimensions.height
  let all : List Dimensions :=
    [⟨l, w, h⟩, ⟨w, l, h⟩, ⟨l, h, w⟩, ⟨h, l, w⟩, ⟨w, h, l⟩, ⟨h, w, l⟩]
  let allowed := if pkg.keepUpright then
      all.filter (fun o => |o.height - h| < 1/10)
    else all
  allowed.foldl pushUnique []

-- Basic facts about the dedup fold.

theorem mem_foldl_pushUnique (l : List Dimensions) :
    ∀ (acc : List Dimensions) (x : Dimensions),
      x ∈ l.foldl pushUnique acc ↔ x ∈ acc ∨ x ∈ l := by
  induction l with
  | nil => intro acc x; simp
  | cons a t ih =>
      intro acc x
      simp only [List.foldl_cons, ih, pushUnique]
      by_cases ha : a ∈ acc
      · simp only [if_pos ha, List.mem_cons]
        constructor
        · rintro (h | h)
          · exact Or.inl h
          · exact Or.inr (Or.inr h)
        · rintro (h | h | h)
          · exact Or.inl h
          · exact Or.inl (h ▸ ha)
          · exact Or.inr h
      · simp only [if_neg ha, List.mem_append, List.mem_singleton, List.mem_cons]
        tauto

theorem nodup_foldl_pushUnique (l : List Dimensions) :
    ∀ (acc : List Dimensions), acc.Nodup → (l.foldl pushUnique acc).Nodup := by
  induction l with
  | nil => intro acc h; simpa using h
  | cons a t ih =>
      intro acc h
      simp only [List.foldl_cons, pushUnique]
      by_cases ha : a ∈ acc
      · simpa [if_pos ha] using ih acc h
      · refine ih _ ?_
        simp [List.nodup_append, h, ha]

theorem length_foldl_pushUnique (l : List Dimensions) :
    ∀ (acc : List Dimensions),
      (l.foldl pushUnique acc).length ≤ acc.length + l.length := by
  induction l with
  | nil => intro acc; simp
  | cons a t ih =>
      intro acc
      simp only [List.foldl_cons, pushUnique]
      by_cases ha : a ∈ acc
      · simp only [if_pos ha]
        calc (t.foldl pushUnique acc).length ≤ acc.length + t.length := ih acc
        _ ≤ acc.length + (a :: t).length := by simp
      · simp only [if_neg ha]
        calc (t.foldl pushUnique (acc ++ [a])).length
            ≤ (acc ++ [a]).length + t.length := ih _
        _ = acc.length + (a :: t).length := by simp [List.length_append]; omega

/-- Every triple returned by `getOrientations` is one of the six axis
assignments of the package's dimensions. -/
theorem mem_getOrientations (pkg : PackageType) (o : Dimensions)
    (ho : o ∈ getOrientations pkg) :
    o = ⟨pkg.dimensions.length, pkg.dimensions.width, pkg.dimensions.height⟩ ∨
    o = ⟨pkg.dimensions.width, pkg.dimensions.length, pkg.dimensions.height⟩ ∨
    o = ⟨pkg.dimensions.length, pkg.dimensions.height, pkg.dimensions.width⟩ ∨
    o = ⟨pkg.dimensions.height, pkg.dimensions.length, pkg.dimensions.width⟩ ∨
    o = ⟨pkg.dimensions.width, pkg.dimensions.height, pkg.dimensions.length⟩ ∨
    o = ⟨pkg.dimensions.height, pkg.dimensions.width, pkg.dimensions.length⟩ := by
  unfold getOrientations at ho
  rw [mem_foldl_pushUnique] at ho
  rcases ho with h | h
  · simp at h
  · by_cases hk : pkg.keepUpright
    · simp only [if_pos hk] at h
      have := List.mem_of_mem_filter h
      simpa using this
    · simp only [if_neg hk] at h
      simpa using h

/-- With `keepUpright`, every returned triple's height is within 0.1 of the
original height (strictly, as in the source filter). -/
theorem getOrientations_keepUpright (pkg : PackageType) (hk : pkg.keepUpright = true)
    (o : Dimensions) (ho : o ∈ getOrientations pkg) :
    |o.height - pkg.dimensions.height| < 1/10 := by
  unfold getOrientations at ho
  rw [mem_foldl_pushUnique] at ho
  rcases ho with h | h
  · simp at h
  · rw [if_pos hk] at h
    have := List.of_mem_filter h
    simpa using this

theorem getOrientations_nodup (pkg : PackageType) : (getOrientations pkg).Nodup := by
  unfold getOrientations
  exact nodup_foldl_pushUnique _ _ List.nodup_nil

theorem getOrientations_ne_nil (pkg : PackageType) : getOrientations pkg ≠ [] := by
  unfold getOrientations
  intro h
  have : (⟨pkg.dimensions.length, pkg.dimensions.width, pkg.dimensions.height⟩ : Dimensions)
      ∈ ([] : List Dimensions) := by
    rw [← h, mem_foldl_pushUnique]
    right
    by_cases hk : pkg.keepUpright
    · rw [if_pos hk]
      refine List.mem_filter.mpr ⟨by simp, ?_⟩
      simp
    · rw [if_neg hk]; simp
  simp at this

theorem getOrientations_length_le (pkg : PackageType) :
    (getOrientations pkg).length ≤ 6 := by
  unfold getOrientations
  refine le_trans (length_foldl_pushUnique _ _) ?_
  by_cases hk : pkg.keepUpright
  · rw [if_pos hk]
    have := List.length_filter_le
      (fun o : Dimensions => decide (|o.height - pkg.dimensions.height| < 1/10))
      [⟨pkg.dimensions.length, pkg.dimensions.width, pkg.dimensions.height⟩,
       ⟨pkg.dimensions.width, pkg.dimensions.length, pkg.dimensions.height⟩,
       ⟨pkg.dimensions.length, pkg.dimensions.height, pkg.dimensions.width⟩,
       ⟨pkg.dimensions.height, pkg.dimensions.length, pkg.dimensions.width⟩,
       ⟨pkg.dimensions.width, pkg.dimensions.height, pkg.dimensions.length⟩,
       ⟨pkg.dimensions.height, pkg.dimensions.width, pkg.dimensions.length⟩]
    simpa using this
  · rw [if_neg hk]; simp

/-! ### The placement engine (`runSimulation`, worker lines 75-179) -/

/-- The anchor comparator from worker lines 90-94: compare z then y then x,
with near-equal coordinates (within 0.1) treated as tied. -/
def anchorCmp (a b : Anchor) : ℚ :=
  if |a.z - b.z| > 1/10 then a.z - b.z
  else if |a.y - b.y| > 1/10 then a.y - b.y
  else a.x - b.x

/-- Stable insertion of an anchor into an already-sorted list, placing `a`
after every element that does not compare strictly greater. -/
def insertAnchor (a : Anchor) : List Anchor → List Anchor
  | [] => [a]
  | b :: rest => if anchorCmp a b ≤ 0 then a :: b :: rest else b :: insertAnchor a rest

/-- The in-place `anchors.sort(...)` of worker line 90, modelled as a
deterministic (insertion) sort under the source comparator. -/
def sortAnchors : List Anchor → List Anchor
  | [] => []
  | a :: rest => insertAnchor a (sortAnchors rest)

/-- The per-placed-item collision test of worker lines 125-143: the candidate
box at `cur` with extents `o` collides with `p` iff none of the six axis
rejections fires, i.e. the open extents intersect on all three axes. -/
def collides (p : PlacedItem) (cur : Anchor) (o : Dimensions) : Bool :=
  decide (cur.z < p.z + p.length) && decide (p.z < cur.z + o.length) &&
  decide (cur.y < p.y + p.height) && decide (p.y < cur.y + o.height) &&
  decide (cur.x < p.x + p.width) && decide (p.x < cur.x + o.width)

/-- The feasibility test of worker lines 107-145: in container bounds from the
anchor, and no collision with any already-placed item. -/
def fits (c : Dimensions) (cur : Anchor) (o : Dimensions)
    (placed : List PlacedItem) : Bool :=
  decide (cur.x + o.width ≤ c.width) &&
  decide (cur.y + o.height ≤ c.height) &&
  decide (cur.z + o.length ≤ c.length) &&
  placed.all (fun p => !collides p cur o)

/-- First feasible orientation in the enumerator's order (worker lines 107-149). -/
def findOrient (c : Dimensions) (cur : Anchor) (placed : List PlacedItem) :
    List Dimensions → Option Dimensions
  | [] => none
  | o :: os => if fits c cur o placed then some o else findOrient c cur placed os

/-- Scan of the (depth-truncated) queue, worker lines 103-152: returns the
index of the first item with a feasible orientation, together with the item and
the orientation chosen. -/
def findItemAux (c : Dimensions) (cur : Anchor) (placed : List PlacedItem) :
    List ItemToPack → Nat → Option (Nat × ItemToPack × Dimensions)
  | [], _ => none
  | it :: rest, i =>
      match findOrient c cur placed (getOrientations it.type) with
      | some o => some (i, it, o)
      | none => findItemAux c cur placed rest (i + 1)

/-- The bounded candidate search: only the first `min queue.length depth`
queue entries are examined (worker lines 100-103). -/
def findChoice (c : Dimensions) (depth : Nat) (cur : Anchor)
    (placed : List PlacedItem) (queue : List ItemToPack) :
    Option (Nat × ItemToPack × Dimensions) :=
  findItemAux c cur placed (queue.take depth) 0

/-- The `PlacedItem` pushed at worker lines 156-166. -/
def mkPlaced (cur : Anchor) (o : Dimensions) (it : ItemToPack) : PlacedItem :=
  { x := cur.x, y := cur.y, z := cur.z,
    width := o.width, height := o.height, length := o.length,
    packageId := it.id, color := it.type.color, label := it.type.name }

/-- The three anchors pushed at worker lines 171-173 (top, right, front). -/
def newAnchors (cur : Anchor) (o : Dimensions) : List Anchor :=
  [⟨cur.x, cur.y + o.height, cur.z⟩,
   ⟨cur.x + o.width, cur.y, cur.z⟩,
   ⟨cur.x, cur.y, cur.z + o.length⟩]

/-- The main while-loop of `runSimulation` (worker lines 86-177).  The fuel
argument models the `safetyCounter < maxIterations` guard: each iteration
consumes one unit.  The loop also stops when the anchor list or the queue is
empty. -/
def simLoop (c : Dimensions) (depth : Nat) :
    Nat → List Anchor → List ItemToPack → List PlacedItem → List PlacedItem
  | 0, _, _, placed => placed
  | _ + 1, [], _, placed => placed
  | _ + 1, _ :: _, [], placed => placed
  | fuel + 1, a0 :: arest, q0 :: qrest, placed =>
      match sortAnchors (a0 :: arest) with
      | [] => placed
      | cur :: restAnchors =>
          let queue := q0 :: qrest
          match findChoice c depth cur placed queue with
          | some (i, it, o) =>
              simLoop c depth fuel (restAnchors ++ newAnchors cur o)
                (queue.eraseIdx i) (placed ++ [mkPlaced cur o it])
          | none => simLoop c depth fuel restAnchors queue placed

/-- `runSimulation` from `packing.worker.ts` lines 75-179: greedy anchor-based
packing of the queue into the container, with search depth 200 for queues
longer than 1000 items and an iteration cap of 50000. -/
def runSimulation (c : Dimensions) (itemsToPack : List ItemToPack) : List PlacedItem :=
  let searchDepth := if itemsToPack.length > 1000 then 200 else itemsToPack.length
  simLoop c searchDepth 50000 [⟨0, 0, 0⟩] itemsToPack []

/-! ### GA crossover (`breed`, worker lines 36-46) -/

/-- `breed` from `packing.worker.ts` lines 36-46: the child is the first half
of `parent1`, followed by the genes of `parent2` whose id is not among the
first half's ids, in `parent2`'s order. -/
def breed (parent1 parent2 : List ItemToPack) : List ItemToPack :=
  let cut := parent1.length / 2
  let child := parent1.take cut
  let existingIds := child.map ItemToPack.id
  child ++ parent2.filter (fun g => ¬ existingIds.contains g.id)

/-! ### Worker message handler (`self.onmessage`, worker lines 182-286) -/

/-- Instance expansion for one package (worker lines 188-194): a package with
absent or zero quantity ("fill mode") yields 1000 instances, a finite quantity
yields exactly that many; instance ids are `pkg.id + "-" + index`. -/
def expandOne (pkg : PackageType) : List ItemToPack :=
  let count := match pkg.quantity with
    | none => 1000
    | some 0 => 1000
    | some q => q
  let vol := pkg.dimensions.length * pkg.dimensions.width * pkg.dimensions.height
  (List.range count).map (fun i => ⟨pkg, pkg.id ++ "-" ++ toString i, vol⟩)

/-- The full `originalAllItems` expansion loop (worker lines 187-194). -/
def expandItems (packages : List PackageType) : List ItemToPack :=
  packages.flatMap expandOne

/-- JS `Map.get`, on the insertion-ordered association list that models the
`unplacedMap`. -/
def mapGet (m : List (String × PackageType)) (k : String) : Option PackageType :=
  match m with
  | [] => none
  | (k', v) :: rest => if k' = k then some v else mapGet rest k

/-- JS `Map.set`: update the entry in place if the key is present, else append. -/
def mapSet (m : List (String × PackageType)) (k : String) (v : PackageType) :
    List (String × PackageType) :=
  match m with
  | [] => [(k, v)]
  | (k', v') :: rest =>
      if k' = k then (k, v) :: rest else (k', v') :: mapSet rest k v

/-- One step of the unplaced-aggregation loop (worker lines 260-270): ids of
placed items are skipped; otherwise the per-type-id quantity counter in the
map is incremented (starting from 1). -/
def addUnplaced (placedIds : List String) (m : List (String × PackageType))
    (item : ItemToPack) : List (String × PackageType) :=
  if placedIds.contains item.id then m
  else
    match mapGet m item.type.id with
    | some current =>
        mapSet m item.type.id { current with quantity := some (current.quantity.getD 0 + 1) }
    | none => mapSet m item.type.id { item.type with quantity := some 1 }

/-- The final `unplacedItems` report (worker lines 256-272): aggregate by
original package-type id every generated instance whose id is not among the
best result's placed ids. -/
def computeUnplaced (originalAllItems : List ItemToPack) (best : List PlacedItem) :
    List PackageType :=
  let placedIds := best.map PlacedItem.packageId
  (originalAllItems.foldl (addUnplaced placedIds) []).map Prod.snd

/-- Number of instances of `pkg` among the placed items, identified by the
instance ids generated for `pkg`. -/
def placedCountFor (pkg : PackageType) (best : List PlacedItem) : ℕ :=
  (best.filter (fun p => ((expandOne pkg).map ItemToPack.id).contains p.packageId)).length

/-- The quantity reported for type id `tid` in an `unplacedItems` list
(0 when the type does not appear). -/
def reportedQty (unplaced : List PackageType) (tid : String) : ℕ :=
  match unplaced.find? (fun t => t.id = tid) with
  | some t => t.quantity.getD 0
  | none => 0

/-! ### Separation and feasibility characterizations -/

/-- Two placed boxes are separated: on at least one of the z, y, x axes their
closed extents meet at most at a boundary. -/
def Sep (p q : PlacedItem) : Prop :=
  p.z + p.length ≤ q.z ∨ q.z + q.length ≤ p.z ∨
  p.y + p.height ≤ q.y ∨ q.y + q.height ≤ p.y ∨
  p.x + p.width ≤ q.x ∨ q.x + q.width ≤ p.x

/-- Separation of an already-placed box from a candidate box at anchor `cur`
with extents `o`. -/
def SepAt (p : PlacedItem) (cur : Anchor) (o : Dimensions) : Prop :=
  p.z + p.length ≤ cur.z ∨ cur.z + o.length ≤ p.z ∨
  p.y + p.height ≤ cur.y ∨ cur.y + o.height ≤ p.y ∨
  p.x + p.width ≤ cur.x ∨ cur.x + o.width ≤ p.x

theorem collides_eq_false_iff (p : PlacedItem) (cur : Anchor) (o : Dimensions) :
    collides p cur o = false ↔ SepAt p cur o := by
  simp only [collides, SepAt, Bool.and_eq_false_iff, decide_eq_false_iff_not, not_lt]
  tauto

theorem sepAt_mkPlaced (p : PlacedItem) (cur : Anchor) (o : Dimensions)
    (it : ItemToPack) (h : SepAt p cur o) : Sep p (mkPlaced cur o it) := by
  simpa [Sep, mkPlaced] using h

theorem fits_eq_true_iff (c : Dimensions) (cur : Anchor) (o : Dimensions)
    (placed : List PlacedItem) :
    fits c cur o placed = true ↔
      cur.x + o.width ≤ c.width ∧ cur.y + o.height ≤ c.height ∧
      cur.z + o.length ≤ c.length ∧ ∀ p ∈ placed, SepAt p cur o := by
  simp only [fits, Bool.and_eq_true, decide_eq_true_eq, List.all_eq_true,
    Bool.not_eq_true', collides_eq_false_iff]
  tauto

theorem findOrient_eq_some (c : Dimensions) (cur : Anchor) (placed : List PlacedItem)
    (os : List Dimensions) (o : Dimensions)
    (h : findOrient c cur placed os = some o) :
    o ∈ os ∧ fits c cur o placed = true := by
  induction os with
  | nil => simp [findOrient] at h
  | cons o0 rest ih =>
      by_cases hf : fits c cur o0 placed = true
      · simp only [findOrient, if_pos hf, Option.some.injEq] at h
        exact ⟨by simp [← h], h ▸ hf⟩
      · simp only [findOrient, if_neg hf] at h
        rcases ih h with ⟨hm, hfit⟩
        exact ⟨List.mem_cons_of_mem _ hm, hfit⟩

theorem findItemAux_eq_some (c : Dimensions) (cur : Anchor) (placed : List PlacedItem) :
    ∀ (l : List ItemToPack) (i j : ℕ) (it : ItemToPack) (o : Dimensions),
      findItemAux c cur placed l i = some (j, it, o) →
      ∃ k, l.get? k = some it ∧ j = i + k ∧
        findOrient c cur placed (getOrientations it.type) = some o := by
  intro l
  induction l with
  | nil => intro i j it o h; simp [findItemAux] at h
  | cons a rest ih =>
      intro i j it o h
      unfold findItemAux at h
      cases hfo : findOrient c cur placed (getOrientations a.type) with
      | some o0 =>
          rw [hfo] at h
          simp only [Option.some.injEq, Prod.mk.injEq] at h
          obtain ⟨hj, hit, ho⟩ := h
          exact ⟨0, by simp [← hit], by omega, by rw [← hit, hfo, ho]⟩
      | none =>
          rw [hfo] at h
          obtain ⟨k, hk, hj, ho⟩ := ih (i + 1) j it o h
          exact ⟨k + 1, by simpa using hk, by omega, ho⟩

/-- Unpacking a successful candidate search: the chosen index addresses the
chosen item in the queue, and the chosen orientation of that item's type fits. -/
theorem findChoice_eq_some (c : Dimensions) (depth : ℕ) (cur : Anchor)
    (placed : List PlacedItem) (queue : List ItemToPack) (i : ℕ)
    (it : ItemToPack) (o : Dimensions)
    (h : findChoice c depth cur placed queue = some (i, it, o)) :
    queue.get? i = some it ∧ o ∈ getOrientations it.type ∧
      fits c cur o placed = true := by
  obtain ⟨k, hk, hi, ho⟩ := findItemAux_eq_some c cur placed _ 0 i it o h
  obtain ⟨hm, hf⟩ := findOrient_eq_some c cur placed _ o ho
  have hq : queue.get? i = some it := by
    subst hi
    simp only [Nat.zero_add] at hk ⊢
    rcases lt_or_ge k depth with hlt | hge
    · rw [List.get?_eq_getElem?] at hk ⊢
      rwa [List.getElem?_take_of_lt hlt] at hk
    · rw [List.get?_eq_getElem?, List.getElem?_take, if_neg (by omega)] at hk
      exact absurd hk (by simp)
  exact ⟨hq, hm, hf⟩

/-- `findChoice` returning `none` when every queue item in range has no
feasible orientation. -/
theorem findChoice_eq_none (c : Dimensions) (depth : ℕ) (cur : Anchor)
    (placed : List PlacedItem) (queue : List ItemToPack)
    (h : ∀ it ∈ queue, findOrient c cur placed (getOrientations it.type) = none) :
    findChoice c depth cur placed queue = none := by
  unfold findChoice
  have haux : ∀ (l : List ItemToPack), (∀ it ∈ l, it ∈ queue) →
      ∀ i, findItemAux c cur placed l i = none := by
    intro l
    induction l with
    | nil => intro _ i; simp [findItemAux]
    | cons a rest ih =>
        intro hsub i
        have ha := h a (hsub a (by simp))
        unfold findItemAux
        rw [ha]
        exact ih (fun it hit => hsub it (List.mem_cons_of_mem _ hit)) (i + 1)
  exact haux _ (fun it hit => List.mem_of_mem_take hit) 0

/-- The modelled anchor sort is a permutation. -/
theorem insertAnchor_perm (a : Anchor) (l : List Anchor) :
    (insertAnchor a l).Perm (a :: l) := by
  induction l with
  | nil => simp [insertAnchor]
  | cons b rest ih =>
      unfold insertAnchor
      by_cases hc : anchorCmp a b ≤ 0
      · rw [if_pos hc]
      · rw [if_neg hc]
        exact (ih.cons b).trans (List.Perm.swap a b rest)

theorem sortAnchors_perm (l : List Anchor) : (sortAnchors l).Perm l := by
  induction l with
  | nil => simp [sortAnchors]
  | cons a rest ih =>
      exact (insertAnchor_perm a _).trans (ih.cons a)

/-- Removing the element addressed by a valid index is a permutation witness. -/
theorem perm_get_cons_eraseIdx (l : List ItemToPack) (i : ℕ) (it : ItemToPack)
    (h : l.get? i = some it) : l.Perm (it :: l.eraseIdx i) := by
  induction l generalizing i with
  | nil => simp at h
  | cons a rest ih =>
      cases i with
      | zero =>
          simp only [List.get?] at h
          injection h with h
          subst h
          simp [List.eraseIdx]
      | succ n =>
          simp only [List.get?] at h
          have h1 : (a :: rest).Perm (it :: a :: rest.eraseIdx n) :=
            ((ih n h).cons a).trans (List.Perm.swap it a _)
          simpa [List.eraseIdx] using h1

/-! ### Loop invariants of the placement engine -/

/-- A placed item lies entirely within the container box. -/
def InBounds (c : Dimensions) (p : PlacedItem) : Prop :=
  0 ≤ p.x ∧ p.x + p.width ≤ c.width ∧
  0 ≤ p.y ∧ p.y + p.height ≤ c.height ∧
  0 ≤ p.z ∧ p.z + p.length ≤ c.length

def NonnegDims (o : Dimensions) : Prop :=
  0 ≤ o.length ∧ 0 ≤ o.width ∧ 0 ≤ o.height

def NonnegAnchor (a : Anchor) : Prop := 0 ≤ a.x ∧ 0 ≤ a.y ∧ 0 ≤ a.z

/-- A placed item's provenance: it reports some queue item's id and cosmetic
fields, and its oriented extents are one of that item's allowed orientations. -/
def FromItem (items0 : List ItemToPack) (p : PlacedItem) : Prop :=
  ∃ it ∈ items0, p.packageId = it.id ∧ p.color = it.type.color ∧
    p.label = it.type.name ∧
    (⟨p.length, p.width, p.height⟩ : Dimensions) ∈ getOrientations it.type

theorem nonneg_getOrientations (pkg : PackageType) (h : NonnegDims pkg.dimensions)
    (o : Dimensions) (ho : o ∈ getOrientations pkg) : NonnegDims o := by
  obtain ⟨h1, h2, h3⟩ := h
  rcases mem_getOrientations pkg o ho with h | h | h | h | h | h <;>
    (subst h; exact ⟨by assumption, by assumption, by assumption⟩)

/-- No-overlap invariant: the loop only appends items that pass the collision
check against everything already placed. -/
theorem simLoop_pairwise (c : Dimensions) (d : ℕ) :
    ∀ (fuel : ℕ) (anchors : List Anchor) (queue : List ItemToPack)
      (placed : List PlacedItem), placed.Pairwise Sep →
      (simLoop c d fuel anchors queue placed).Pairwise Sep := by
  intro fuel
  induction fuel with
  | zero => intro a q p hp; simpa [simLoop] using hp
  | succ n ih =>
      intro anchors queue placed hp
      match anchors, queue with
      | [], q => simpa [simLoop] using hp
      | a0 :: arest, [] => simpa [simLoop] using hp
      | a0 :: arest, q0 :: qrest =>
          rw [simLoop]
          cases hs : sortAnchors (a0 :: arest) with
          | nil => exact hp
          | cons cur restAnchors =>
              dsimp only
              cases hc : findChoice c d cur placed (q0 :: qrest) with
              | none => exact ih _ _ _ hp
              | some x =>
                  obtain ⟨i, it, o⟩ := x
                  refine ih _ _ _ ?_
                  obtain ⟨hq, hm, hf⟩ := findChoice_eq_some c d cur placed _ i it o hc
                  rw [fits_eq_true_iff] at hf
                  rw [List.pairwise_append]
                  refine ⟨hp, by simp, ?_⟩
                  intro p hpmem q hqmem
                  rw [List.mem_singleton] at hqmem
                  subst hqmem
                  exact sepAt_mkPlaced p cur o it (hf.2.2.2 p hpmem)

/-- In-bounds invariant: anchors stay in the nonnegative octant, and every
placed item passed the container-bounds test from its anchor. -/
theorem simLoop_inBounds (c : Dimensions) (d : ℕ) :
    ∀ (fuel : ℕ) (anchors : List Anchor) (queue : List ItemToPack)
      (placed : List PlacedItem),
      (∀ x ∈ anchors, NonnegAnchor x) →
      (∀ it ∈ queue, NonnegDims it.type.dimensions) →
      (∀ p ∈ placed, InBounds c p) →
      ∀ p ∈ simLoop c d fuel anchors queue placed, InBounds c p := by
  intro fuel
  induction fuel with
  | zero => intro a q p _ _ hp; simpa [simLoop] using hp
  | succ n ih =>
      intro anchors queue placed hanchor hqueue hplaced
      match anchors, queue with
      | [], q => simpa [simLoop] using hplaced
      | a0 :: arest, [] => simpa [simLoop] using hplaced
      | a0 :: arest, q0 :: qrest =>
          rw [simLoop]
          cases hs : sortAnchors (a0 :: arest) with
          | nil => exact hplaced
          | cons cur restAnchors =>
              have hsortmem : ∀ x ∈ cur :: restAnchors, NonnegAnchor x := by
                intro x hx
                exact hanchor x (((sortAnchors_perm _).mem_iff).mp (hs ▸ hx))
              have hcur : NonnegAnchor cur := hsortmem cur (by simp)
              dsimp only
              cases hc : findChoice c d cur placed (q0 :: qrest) with
              | none =>
                  exact ih restAnchors _ placed
                    (fun x hx => hsortmem x (List.mem_cons_of_mem _ hx))
                    hqueue hplaced
              | some x =>
                  obtain ⟨i, it, o⟩ := x
                  obtain ⟨hq, hm, hf⟩ := findChoice_eq_some c d cur placed _ i it o hc
                  rw [fits_eq_true_iff] at hf
                  have hitmem : it ∈ q0 :: qrest := List.get?_mem hq
                  have ho : NonnegDims o :=
                    nonneg_getOrientations it.type (hqueue it hitmem) o hm
                  refine ih _ _ _ ?_ ?_ ?_
                  · intro x hx
                    rw [List.mem_append] at hx
                    rcases hx with hx | hx
                    · exact hsortmem x (List.mem_cons_of_mem _ hx)
                    · obtain ⟨hcx, hcy, hcz⟩ := hcur
                      obtain ⟨ho1, ho2, ho3⟩ := ho
                      simp only [newAnchors, List.mem_cons, List.mem_singleton,
                        List.not_mem_nil, or_false] at hx
                      rcases hx with hx | hx | hx
                      · subst hx; exact ⟨hcx, by positivity, hcz⟩
                      · subst hx; exact ⟨by positivity, hcy, hcz⟩
                      · subst hx; exact ⟨hcx, hcy, by positivity⟩
                  · intro x hx
                    exact hqueue x ((List.eraseIdx_sublist _ i).subset hx)
                  · intro p hpm
                    rw [List.mem_append] at hpm
                    rcases hpm with hpm | hpm
                    · exact hplaced p hpm
                    · rw [List.mem_singleton] at hpm
                      subst hpm
                      obtain ⟨hcx, hcy, hcz⟩ := hcur
                      exact ⟨hcx, hf.1, hcy, hf.2.1, hcz, hf.2.2.1⟩

/-- Provenance invariant: every emitted `PlacedItem` is built by `mkPlaced`
from some original queue item and one of its allowed orientations. -/
theorem simLoop_fromItem (c : Dimensions) (d : ℕ) (items0 : List ItemToPack) :
    ∀ (fuel : ℕ) (anchors : List Anchor) (queue : List ItemToPack)
      (placed : List PlacedItem),
      (∀ it ∈ queue, it ∈ items0) →
      (∀ p ∈ placed, FromItem items0 p) →
      ∀ p ∈ simLoop c d fuel anchors queue placed, FromItem items0 p := by
  intro fuel
  induction fuel with
  | zero => intro a q p _ hp; simpa [simLoop] using hp
  | succ n ih =>
      intro anchors queue placed hqueue hplaced
      match anchors, queue with
      | [], q => simpa [simLoop] using hplaced
      | a0 :: arest, [] => simpa [simLoop] using hplaced
      | a0 :: arest, q0 :: qrest =>
          rw [simLoop]
          cases hs : sortAnchors (a0 :: arest) with
          | nil => exact hplaced
          | cons cur restAnchors =>
              dsimp only
              cases hc : findChoice c d cur placed (q0 :: qrest) with
              | none => exact ih _ _ _ hqueue hplaced
              | some x =>
                  obtain ⟨i, it, o⟩ := x
                  obtain ⟨hq, hm, _⟩ := findChoice_eq_some c d cur placed _ i it o hc
                  have hitmem : it ∈ q0 :: qrest := List.get?_mem hq
                  refine ih _ _ _ ?_ ?_
                  · intro x hx
                    exact hqueue x ((List.eraseIdx_sublist _ i).subset hx)
                  · intro p hpm
                    rw [List.mem_append] at hpm
                    rcases hpm with hpm | hpm
                    · exact hplaced p hpm
                    · rw [List.mem_singleton] at hpm
                      subst hpm
                      exact ⟨it, hqueue it hitmem, rfl, rfl, rfl, hm⟩

/-- Accounting invariant: the ids of the output are a sub-multiset of the ids
already placed plus the ids still in the queue. -/
theorem simLoop_ids_subperm (c : Dimensions) (d : ℕ) :
    ∀ (fuel : ℕ) (anchors : List Anchor) (queue : List ItemToPack)
      (placed : List PlacedItem),
      ((simLoop c d fuel anchors queue placed).map PlacedItem.packageId).Subperm
        (placed.map PlacedItem.packageId ++ queue.map ItemToPack.id) := by
  intro fuel
  induction fuel with
  | zero =>
      intro a q p
      simp only [simLoop]
      exact (List.sublist_append_left _ _).subperm
  | succ n ih =>
      intro anchors queue placed
      match anchors, queue with
      | [], q =>
          simp only [simLoop]
          exact (List.sublist_append_left _ _).subperm
      | a0 :: arest, [] =>
          simp only [simLoop]
          exact (List.sublist_append_left _ _).subperm
      | a0 :: arest, q0 :: qrest =>
          rw [simLoop]
          cases hs : sortAnchors (a0 :: arest) with
          | nil => exact (List.sublist_append_left _ _).subperm
          | cons cur restAnchors =>
              dsimp only
              cases hc : findChoice c d cur placed (q0 :: qrest) with
              | none => exact ih _ _ _
              | some x =>
                  obtain ⟨i, it, o⟩ := x
                  obtain ⟨hq, _, _⟩ := findChoice_eq_some c d cur placed _ i it o hc
                  refine (ih _ _ _).trans (List.Perm.subperm ?_)
                  have hqperm : ((q0 :: qrest).map ItemToPack.id).Perm
                      (it.id :: ((q0 :: qrest).eraseIdx i).map ItemToPack.id) := by
                    have := (perm_get_cons_eraseIdx _ i it hq).map ItemToPack.id
                    simpa using this
                  have h1 : (placed ++ [mkPlaced cur o it]).map PlacedItem.packageId ++
                        ((q0 :: qrest).eraseIdx i).map ItemToPack.id
                      = placed.map PlacedItem.packageId ++
                          (it.id :: ((q0 :: qrest).eraseIdx i).map ItemToPack.id) := by
                    simp [mkPlaced]
                  rw [h1]
                  exact List.Perm.append_left _ hqperm.symm
/-! ### Engine-level corollaries -/

instance decNonnegDims (o : Dimensions) : Decidable (NonnegDims o) := by
  unfold NonnegDims; infer_instance

instance decNonnegAnchor (a : Anchor) : Decidable (NonnegAnchor a) := by
  unfold NonnegAnchor; infer_instance

instance decInBounds (c : Dimensions) (p : PlacedItem) : Decidable (InBounds c p) := by
  unfold InBounds; infer_instance

theorem runSimulation_fromItem (c : Dimensions) (items : List ItemToPack)
    (p : PlacedItem) (hp : p ∈ runSimulation c items) : FromItem items p := by
  unfold runSimulation at hp
  exact simLoop_fromItem c _ items 50000 _ items []
    (fun _ h => h) (by simp) p hp

theorem runSimulation_ids_subperm (c : Dimensions) (items : List ItemToPack) :
    ((runSimulation c items).map PlacedItem.packageId).Subperm
      (items.map ItemToPack.id) := by
  unfold runSimulation
  simpa using simLoop_ids_subperm c _ 50000 [⟨0, 0, 0⟩] items []

-- Three-element multiset permutation identities used for orientation triples.

theorem mset3_bac (a b c : ℚ) : ({b, a, c} : Multiset ℚ) = {a, b, c} :=
  Multiset.cons_swap b a {c}

theorem mset3_acb (a b c : ℚ) : ({a, c, b} : Multiset ℚ) = {a, b, c} :=
  congrArg (a ::ₘ ·) (Multiset.cons_swap c b 0)

theorem mset3_cab (a b c : ℚ) : ({c, a, b} : Multiset ℚ) = {a, b, c} :=
  (Multiset.cons_swap c a {b}).trans (congrArg (a ::ₘ ·) (Multiset.cons_swap c b 0))

theorem mset3_bca (a b c : ℚ) : ({b, c, a} : Multiset ℚ) = {a, b, c} :=
  (congrArg (b ::ₘ ·) (Multiset.cons_swap c a 0)).trans (Multiset.cons_swap b a {c})

theorem mset3_cba (a b c : ℚ) : ({c, b, a} : Multiset ℚ) = {a, b, c} :=
  (Multiset.cons_swap c b {a}).trans
    ((congrArg (b ::ₘ ·) (Multiset.cons_swap c a 0)).trans (Multiset.cons_swap b a {c}))

/-! ### Concrete sample inputs used by witnesses -/

def wPkg : PackageType :=
  { id := "A", name := "box", dimensions := ⟨5, 5, 5⟩, quantity := some 2,
    color := "red", keepUpright := true }

def wItems : List ItemToPack := [⟨wPkg, "A-0", 125⟩, ⟨wPkg, "A-1", 125⟩]

def wContainer : Dimensions := ⟨10, 10, 10⟩

/-! ### Claim C1: no overlap -/

/-- C1: for every result produced by the placement engine and every pair of
distinct `PlacedItem`s in it, the two axis-aligned boxes do not overlap on all
three axes simultaneously: on at least one of the z, y, x axes the two closed
intervals meet at most at their boundary (`Sep`). -/
theorem claim_no_overlap (c : Dimensions) (items : List ItemToPack) :
    (runSimulation c items).Pairwise Sep := by
  unfold runSimulation
  exact simLoop_pairwise c _ 50000 _ items [] (by simp)

/-! ### Claim C2: in bounds -/

/-- C2: every `PlacedItem` produced by the placement engine lies entirely
within the container box, provided the item dimensions are nonnegative (the
spec assumes positive, pre-validated dimensions). -/
theorem claim_in_bounds (c : Dimensions) (items : List ItemToPack)
    (hdims : ∀ it ∈ items, NonnegDims it.type.dimensions) :
    ∀ p ∈ runSimulation c items, InBounds c p := by
  unfold runSimulation
  exact simLoop_inBounds c _ 50000 _ items []
    (by intro x hx; rw [List.mem_singleton] at hx; subst hx; exact ⟨le_refl 0, le_refl 0, le_refl 0⟩)
    hdims (by simp)

/-- Witness for C2 at a concrete input: two 5×5×5 boxes in a 10×10×10
container. -/
theorem claim_in_bounds_witness :
    (∀ it ∈ wItems, NonnegDims it.type.dimensions) ∧
    (∀ p ∈ runSimulation wContainer wItems, InBounds wContainer p) :=
  ⟨of_decide_eq_true (by with_unfolding_all rfl),
   claim_in_bounds wContainer wItems (of_decide_eq_true (by with_unfolding_all rfl))⟩

/-! ### Claim C5: keep-upright preservation -/

/-- C5: every `PlacedItem` whose source package type has `keepUpright = true`
is placed with height within 0.1 of the type's original height (the source
filter is even strict). -/
theorem claim_keep_upright (c : Dimensions) (items : List ItemToPack)
    (hids : (items.map ItemToPack.id).Nodup)
    (p : PlacedItem) (hp : p ∈ runSimulation c items)
    (it : ItemToPack) (hit : it ∈ items) (hid : p.packageId = it.id)
    (hup : it.type.keepUpright = true) :
    |p.height - it.type.dimensions.height| ≤ 1/10 := by
  obtain ⟨it', hit', hid', _, _, hmem⟩ := runSimulation_fromItem c items p hp
  have heq : it' = it :=
    List.inj_on_of_nodup_map hids hit' hit (by rw [← hid', hid])
  rw [← heq] at hup ⊢
  have := getOrientations_keepUpright it'.type hup _ hmem
  simpa using le_of_lt this

/-- Witness for C5: a keep-upright 5×5×5 box placed in a 10×10×10 container. -/
theorem claim_keep_upright_witness :
    (⟨0, 0, 0, 5, 5, 5, "A-0", "red", "box"⟩ : PlacedItem) ∈
        runSimulation wContainer wItems ∧
    |(⟨0, 0, 0, 5, 5, 5, "A-0", "red", "box"⟩ : PlacedItem).height -
        wPkg.dimensions.height| ≤ 1/10 :=
  ⟨of_decide_eq_true (by with_unfolding_all rfl),
   claim_keep_upright wContainer wItems (of_decide_eq_true (by with_unfolding_all rfl))
     _ (of_decide_eq_true (by with_unfolding_all rfl))
     ⟨wPkg, "A-0", 125⟩ (by simp [wItems]) rfl rfl⟩

/-! ### Claim C7: determinism of the placement engine -/

/-- C7: the placement engine is deterministic — two runs on identical inputs
(same container, same ordered item list) produce identical placed-item lists.
In this embedding `runSimulation` is a pure function of its arguments (the
source function reads no random or global state), so equal inputs give equal
outputs. -/
theorem claim_deterministic (c₁ c₂ : Dimensions) (items₁ items₂ : List ItemToPack)
    (hc : c₁ = c₂) (hi : items₁ = items₂) :
    runSimulation c₁ items₁ = runSimulation c₂ items₂ := by
  subst hc; subst hi; rfl

/-- Witness for C7 at a concrete input. -/
theorem claim_deterministic_witness :
    runSimulation wContainer wItems = runSimulation wContainer wItems :=
  claim_deterministic wContainer wContainer wItems wItems rfl rfl

/-! ### Claim C10: placed extents are a permutation of the type's dimensions -/

/-- C10 (implicit): every `PlacedItem` reports some source item's id, and its
oriented extents are a permutation of that item's type dimensions; hence its
volume equals the type's volume — boxes are never scaled or deformed. -/
theorem claim_dims_permutation (c : Dimensions) (items : List ItemToPack)
    (p : PlacedItem) (hp : p ∈ runSimulation c items) :
    ∃ it ∈ items, p.packageId = it.id ∧
      ({p.length, p.width, p.height} : Multiset ℚ) =
        {it.type.dimensions.length, it.type.dimensions.width,
          it.type.dimensions.height} ∧
      p.width * p.height * p.length =
        it.type.dimensions.length * it.type.dimensions.width *
          it.type.dimensions.height := by
  obtain ⟨it, hit, hid, _, _, hmem⟩ := runSimulation_fromItem c items p hp
  refine ⟨it, hit, hid, ?_⟩
  rcases mem_getOrientations it.type _ hmem with ho | ho | ho | ho | ho | ho <;>
    (rw [Dimensions.mk.injEq] at ho; obtain ⟨h1, h2, h3⟩ := ho; rw [h1, h2, h3])
  · exact ⟨rfl, by ring⟩
  · exact ⟨mset3_bac _ _ _, by ring⟩
  · exact ⟨mset3_acb _ _ _, by ring⟩
  · exact ⟨mset3_cab _ _ _, by ring⟩
  · exact ⟨mset3_bca _ _ _, by ring⟩
  · exact ⟨mset3_cba _ _ _, by ring⟩

/-- Witness for C10: the concrete placed item of the sample run. -/
theorem claim_dims_permutation_witness :
    (⟨0, 0, 0, 5, 5, 5, "A-0", "red", "box"⟩ : PlacedItem) ∈
        runSimulation wContainer wItems ∧
    ∃ it ∈ wItems,
      (⟨0, 0, 0, 5, 5, 5, "A-0", "red", "box"⟩ : PlacedItem).packageId = it.id ∧
      ({5, 5, 5} : Multiset ℚ) =
        {it.type.dimensions.length, it.type.dimensions.width,
          it.type.dimensions.height} ∧
      (5 : ℚ) * 5 * 5 =
        it.type.dimensions.length * it.type.dimensions.width *
          it.type.dimensions.height := by
  have hmem : (⟨0, 0, 0, 5, 5, 5, "A-0", "red", "box"⟩ : PlacedItem) ∈
      runSimulation wContainer wItems := of_decide_eq_true (by with_unfolding_all rfl)
  exact ⟨hmem, claim_dims_permutation wContainer wItems _ hmem⟩

/-! ### Claim C6: orientation enumerator bounds -/

/-- C6: for positive dimensions `getOrientations` returns between 1 and 6
pairwise-distinct triples; exactly 1 for a cube; and with `keepUpright` every
returned triple's height is within 0.1 of the original height. -/
theorem claim_orientation_bounds (pkg : PackageType)
    (hl : 0 < pkg.dimensions.length) (hw : 0 < pkg.dimensions.width)
    (hh : 0 < pkg.dimensions.height) :
    (1 ≤ (getOrientations pkg).length ∧ (getOrientations pkg).length ≤ 6 ∧
      (getOrientations pkg).Pairwise (· ≠ ·)) ∧
    (pkg.dimensions.length = pkg.dimensions.width →
      pkg.dimensions.width = pkg.dimensions.height →
      (getOrientations pkg).length = 1) ∧
    (pkg.keepUpright = true →
      ∀ o ∈ getOrientations pkg, |o.height - pkg.dimensions.height| ≤ 1/10) := by
  refine ⟨⟨?_, getOrientations_length_le pkg, getOrientations_nodup pkg⟩, ?_, ?_⟩
  · rcases List.eq_nil_or_concat (getOrientations pkg) with hnil | ⟨_, _, hcase⟩
    · exact absurd hnil (getOrientations_ne_nil pkg)
    · rw [hcase]; simp
  · intro h1 h2
    have hx : getOrientations pkg =
        [⟨pkg.dimensions.height, pkg.dimensions.height, pkg.dimensions.height⟩] := by
      simp only [getOrientations]
      rw [h1, h2]
      by_cases hk : pkg.keepUpright <;> simp [hk, pushUnique]
    rw [hx]
    rfl
  · intro hk o ho
    exact le_of_lt (getOrientations_keepUpright pkg hk o ho)

/-- Witness for C6 at a concrete package (a cube with keep-upright set). -/
theorem claim_orientation_bounds_witness :
    ((0 : ℚ) < wPkg.dimensions.length ∧ (0 : ℚ) < wPkg.dimensions.width ∧
      (0 : ℚ) < wPkg.dimensions.height) ∧
    (getOrientations wPkg).length = 1 := by
  have h1 : (0 : ℚ) < wPkg.dimensions.length := of_decide_eq_true (by with_unfolding_all rfl)
  have h2 : (0 : ℚ) < wPkg.dimensions.width := of_decide_eq_true (by with_unfolding_all rfl)
  have h3 : (0 : ℚ) < wPkg.dimensions.height := of_decide_eq_true (by with_unfolding_all rfl)
  exact ⟨⟨h1, h2, h3⟩,
    (claim_orientation_bounds wPkg h1 h2 h3).2.1 rfl rfl⟩

/-! ### Characterizing the unplaced-items report -/

/-- The quantity recorded in the aggregation map for a given type id. -/
def mapQty (m : List (String × PackageType)) (tid : String) : ℕ :=
  match mapGet m tid with
  | some v => v.quantity.getD 0
  | none => 0

theorem mapGet_mapSet_self (m : List (String × PackageType)) (k : String)
    (v : PackageType) : mapGet (mapSet m k v) k = some v := by
  induction m with
  | nil => simp [mapSet, mapGet]
  | cons kv rest ih =>
      obtain ⟨k', v'⟩ := kv
      by_cases hk : k' = k
      · simp [mapSet, hk, mapGet]
      · simp [mapSet, hk, mapGet, ih]

theorem mapGet_mapSet_ne (m : List (String × PackageType)) (k k' : String)
    (v : PackageType) (h : k' ≠ k) : mapGet (mapSet m k v) k' = mapGet m k' := by
  have hkk : ¬ k = k' := fun hk => h hk.symm
  induction m with
  | nil => simp only [mapSet, mapGet, if_neg hkk]
  | cons kv rest ih =>
      obtain ⟨k0, v0⟩ := kv
      by_cases hk : k0 = k
      · subst hk
        simp only [mapSet, if_pos rfl, mapGet, if_neg hkk]
      · simp only [mapSet, if_neg hk, mapGet]
        by_cases hk' : k0 = k'
        · simp only [if_pos hk']
        · simp only [if_neg hk', ih]

/-- Keys determine value ids and are unique in the aggregation map. -/
def MapWF (m : List (String × PackageType)) : Prop :=
  (∀ kv ∈ m, kv.2.id = kv.1) ∧ (m.map Prod.fst).Nodup

theorem mem_mapSet_elim (m : List (String × PackageType)) (k : String)
    (v : PackageType) (kv : String × PackageType) (h : kv ∈ mapSet m k v) :
    kv = (k, v) ∨ kv ∈ m := by
  induction m with
  | nil => simp only [mapSet, List.mem_singleton] at h; exact Or.inl h
  | cons kv0 rest ih =>
      obtain ⟨k0, v0⟩ := kv0
      by_cases hk : k0 = k
      · simp only [mapSet, if_pos hk, List.mem_cons] at h
        rcases h with h | h
        · exact Or.inl h
        · exact Or.inr (List.mem_cons_of_mem _ h)
      · simp only [mapSet, if_neg hk, List.mem_cons] at h
        rcases h with h | h
        · exact Or.inr (by simp [h])
        · rcases ih h with h1 | h1
          · exact Or.inl h1
          · exact Or.inr (List.mem_cons_of_mem _ h1)

theorem map_fst_mapSet (m : List (String × PackageType)) (k : String)
    (v : PackageType) :
    (mapSet m k v).map Prod.fst =
      if k ∈ m.map Prod.fst then m.map Prod.fst else m.map Prod.fst ++ [k] := by
  induction m with
  | nil => simp [mapSet]
  | cons kv0 rest ih =>
      obtain ⟨k0, v0⟩ := kv0
      by_cases hk : k0 = k
      · subst hk
        simp [mapSet]
      · simp only [mapSet, if_neg hk, List.map_cons, ih]
        have hmem : k ∈ (k0, v0).1 :: rest.map Prod.fst ↔ k ∈ rest.map Prod.fst := by
          simp only [List.mem_cons]
          constructor
          · rintro (h | h)
            · exact absurd h.symm hk
            · exact h
          · exact Or.inr
        by_cases hr : k ∈ rest.map Prod.fst
        · simp [hr, hmem.mpr hr]
        · have : ¬ k ∈ (k0, v0).1 :: rest.map Prod.fst := fun h => hr (hmem.mp h)
          simp only [if_neg hr, if_neg this, List.cons_append]

theorem mapWF_mapSet (m : List (String × PackageType)) (k : String)
    (v : PackageType) (hm : MapWF m) (hv : v.id = k) : MapWF (mapSet m k v) := by
  refine ⟨?_, ?_⟩
  · intro kv hkv
    rcases mem_mapSet_elim m k v kv hkv with h | h
    · subst h; exact hv
    · exact hm.1 kv h
  · rw [map_fst_mapSet]
    by_cases hmem : k ∈ m.map Prod.fst
    · simpa [hmem] using hm.2
    · simp [hmem, List.nodup_append, hm.2]

theorem mapGet_of_mapWF (m : List (String × PackageType)) (k : String)
    (v : PackageType) (hm : MapWF m) (h : mapGet m k = some v) : v.id = k := by
  induction m with
  | nil => simp [mapGet] at h
  | cons kv rest ih =>
      obtain ⟨k0, v0⟩ := kv
      by_cases hk : k0 = k
      · simp only [mapGet, if_pos hk] at h
        injection h with h
        subst h
        exact (hm.1 (k0, v0) (by simp)).trans hk
      · simp only [mapGet, if_neg hk] at h
        exact ih ⟨fun kv hkv => hm.1 kv (List.mem_cons_of_mem _ hkv), (by
          have := hm.2
          simp only [List.map_cons, List.nodup_cons] at this
          exact this.2)⟩ h

/-- The per-item predicate counted by the unplaced report: not placed, and of
the given original type id. -/
def unplacedPred (placedIds : List String) (tid : String) (it : ItemToPack) : Bool :=
  !placedIds.contains it.id && (it.type.id == tid)

theorem addUnplaced_of_contains (placedIds : List String)
    (m : List (String × PackageType)) (it : ItemToPack)
    (h : placedIds.contains it.id = true) : addUnplaced placedIds m it = m := by
  unfold addUnplaced
  rw [if_pos h]

theorem mapQty_addUnplaced_self (placedIds : List String)
    (m : List (String × PackageType)) (it : ItemToPack)
    (h : ¬ placedIds.contains it.id = true) :
    mapQty (addUnplaced placedIds m it) it.type.id = mapQty m it.type.id + 1 := by
  unfold addUnplaced
  rw [if_neg h]
  cases hget : mapGet m it.type.id with
  | some current =>
      unfold mapQty
      rw [mapGet_mapSet_self, hget]
      simp
  | none =>
      unfold mapQty
      rw [mapGet_mapSet_self, hget]
      simp

theorem mapQty_addUnplaced_other (placedIds : List String)
    (m : List (String × PackageType)) (it : ItemToPack) (tid : String)
    (hne : it.type.id ≠ tid) :
    mapQty (addUnplaced placedIds m it) tid = mapQty m tid := by
  unfold addUnplaced
  by_cases h : placedIds.contains it.id = true
  · rw [if_pos h]
  · rw [if_neg h]
    have hx := fun hh : tid = it.type.id => hne hh.symm
    cases hget : mapGet m it.type.id with
    | some current =>
        unfold mapQty
        rw [mapGet_mapSet_ne m it.type.id tid _ hx]
    | none =>
        unfold mapQty
        rw [mapGet_mapSet_ne m it.type.id tid _ hx]

theorem isSome_addUnplaced_self (placedIds : List String)
    (m : List (String × PackageType)) (it : ItemToPack)
    (h : ¬ placedIds.contains it.id = true) :
    (mapGet (addUnplaced placedIds m it) it.type.id).isSome := by
  unfold addUnplaced
  rw [if_neg h]
  cases hget : mapGet m it.type.id with
  | some current => rw [mapGet_mapSet_self]; rfl
  | none => rw [mapGet_mapSet_self]; rfl

theorem mapGet_addUnplaced_other (placedIds : List String)
    (m : List (String × PackageType)) (it : ItemToPack) (tid : String)
    (hne : it.type.id ≠ tid) :
    mapGet (addUnplaced placedIds m it) tid = mapGet m tid := by
  unfold addUnplaced
  by_cases h : placedIds.contains it.id = true
  · rw [if_pos h]
  · rw [if_neg h]
    have hx := fun hh : tid = it.type.id => hne hh.symm
    cases hget : mapGet m it.type.id with
    | some current => exact mapGet_mapSet_ne m it.type.id tid _ hx
    | none => exact mapGet_mapSet_ne m it.type.id tid _ hx

theorem foldl_addUnplaced_qty (placedIds : List String) (tid : String) :
    ∀ (items : List ItemToPack) (m : List (String × PackageType)),
      mapQty (items.foldl (addUnplaced placedIds) m) tid =
        mapQty m tid + items.countP (unplacedPred placedIds tid) := by
  intro items
  induction items with
  | nil => intro m; simp
  | cons it rest ih =>
      intro m
      rw [List.foldl_cons, ih, List.countP_cons]
      by_cases hplaced : placedIds.contains it.id = true
      · have hpred : unplacedPred placedIds tid it = false := by
          simp [unplacedPred, List.elem_iff.mp hplaced]
        rw [addUnplaced_of_contains placedIds m it hplaced, hpred]
        simp
      · by_cases htid : it.type.id = tid
        · have hpred : unplacedPred placedIds tid it = true := by
            simp [unplacedPred, htid]
            simpa using hplaced
          rw [hpred]
          have hstep := mapQty_addUnplaced_self placedIds m it hplaced
          rw [htid] at hstep
          rw [hstep]
          simp
          omega
        · have hpred : unplacedPred placedIds tid it = false := by
            simp [unplacedPred, htid]
          rw [hpred, mapQty_addUnplaced_other placedIds m it tid htid]
          simp

theorem mapGet_foldl_addUnplaced_mono (placedIds : List String) (tid : String) :
    ∀ (items : List ItemToPack) (m : List (String × PackageType)),
      (mapGet m tid).isSome →
      (mapGet (items.foldl (addUnplaced placedIds) m) tid).isSome := by
  intro items
  induction items with
  | nil => intro m hm; simpa using hm
  | cons it rest ih =>
      intro m hm
      rw [List.foldl_cons]
      refine ih _ ?_
      by_cases htid : it.type.id = tid
      · by_cases hplaced : placedIds.contains it.id = true
        · rwa [addUnplaced_of_contains placedIds m it hplaced]
        · have := isSome_addUnplaced_self placedIds m it hplaced
          rwa [htid] at this
      · rwa [mapGet_addUnplaced_other placedIds m it tid htid]

theorem foldl_addUnplaced_isSome (placedIds : List String) (tid : String) :
    ∀ (items : List ItemToPack) (m : List (String × PackageType)),
      (mapGet (items.foldl (addUnplaced placedIds) m) tid).isSome ↔
        (mapGet m tid).isSome ∨ 0 < items.countP (unplacedPred placedIds tid) := by
  intro items
  induction items with
  | nil => intro m; simp
  | cons it rest ih =>
      intro m
      rw [List.foldl_cons, ih, List.countP_cons]
      by_cases hplaced : placedIds.contains it.id = true
      · have hpred : unplacedPred placedIds tid it = false := by
          simp [unplacedPred, List.elem_iff.mp hplaced]
        rw [addUnplaced_of_contains placedIds m it hplaced, hpred]
        simp
      · by_cases htid : it.type.id = tid
        · have hpred : unplacedPred placedIds tid it = true := by
            simp [unplacedPred, htid]
            simpa using hplaced
          rw [hpred]
          have hsome := isSome_addUnplaced_self placedIds m it hplaced
          rw [htid] at hsome
          simp [hsome]
        · have hpred : unplacedPred placedIds tid it = false := by
            simp [unplacedPred, htid]
          rw [hpred, mapGet_addUnplaced_other placedIds m it tid htid]
          simp

theorem foldl_addUnplaced_mapWF (placedIds : List String) :
    ∀ (items : List ItemToPack) (m : List (String × PackageType)),
      MapWF m → MapWF (items.foldl (addUnplaced placedIds) m) := by
  intro items
  induction items with
  | nil => intro m hm; simpa using hm
  | cons it rest ih =>
      intro m hm
      rw [List.foldl_cons]
      refine ih _ ?_
      by_cases hplaced : placedIds.contains it.id = true
      · rwa [addUnplaced_of_contains placedIds m it hplaced]
      · unfold addUnplaced
        rw [if_neg hplaced]
        cases hget : mapGet m it.type.id with
        | some current =>
            have hcid : current.id = it.type.id :=
              mapGet_of_mapWF m it.type.id current hm hget
            exact mapWF_mapSet m _ _ hm hcid
        | none => exact mapWF_mapSet m _ _ hm rfl

theorem find?_snd_eq_mapGet (tid : String) :
    ∀ (m : List (String × PackageType)), MapWF m →
      (m.map Prod.snd).find? (fun t => t.id = tid) = mapGet m tid := by
  intro m
  induction m with
  | nil => intro _; rfl
  | cons kv rest ih =>
      intro hm
      obtain ⟨k0, v0⟩ := kv
      have hv0 : v0.id = k0 := hm.1 (k0, v0) (by simp)
      have hrest : MapWF rest := by
        refine ⟨fun kv hkv => hm.1 kv (List.mem_cons_of_mem _ hkv), ?_⟩
        have := hm.2
        simp only [List.map_cons, List.nodup_cons] at this
        exact this.2
      by_cases hk : k0 = tid
      · simp only [List.map_cons, List.find?_cons, mapGet, if_pos hk]
        rw [hv0, hk]
        simp
      · simp only [List.map_cons, List.find?_cons, mapGet, if_neg hk]
        have : (decide (v0.id = tid)) = false := by
          simp [hv0, hk]
        rw [this]
        exact ih hrest

/-- Unconditional characterization of the reported unplaced quantity: it is the
number of generated instances of the given type id whose instance id is not
among the placed ids. -/
theorem reportedQty_eq_countP (items : List ItemToPack) (best : List PlacedItem)
    (tid : String) :
    reportedQty (computeUnplaced items best) tid =
      items.countP (unplacedPred (best.map PlacedItem.packageId) tid) := by
  unfold reportedQty computeUnplaced
  rw [find?_snd_eq_mapGet tid _
    (foldl_addUnplaced_mapWF (best.map PlacedItem.packageId) items [] ⟨by simp, by simp⟩)]
  have hq := foldl_addUnplaced_qty (best.map PlacedItem.packageId) tid items []
  have h0 : mapQty ([] : List (String × PackageType)) tid = 0 := rfl
  rw [h0, Nat.zero_add] at hq
  exact hq

/-- An entry for a type id appears in the report iff some counted instance of
that type is unplaced. -/
theorem mem_computeUnplaced_iff (items : List ItemToPack) (best : List PlacedItem)
    (tid : String) :
    (∃ t ∈ computeUnplaced items best, t.id = tid) ↔
      0 < items.countP (unplacedPred (best.map PlacedItem.packageId) tid) := by
  have hceq : computeUnplaced items best =
      (items.foldl (addUnplaced (best.map PlacedItem.packageId)) []).map Prod.snd := rfl
  rw [hceq]
  have hfind := @List.find?_isSome PackageType
    ((items.foldl (addUnplaced (best.map PlacedItem.packageId)) []).map Prod.snd)
    (fun t => t.id = tid)
  rw [find?_snd_eq_mapGet tid _
    (foldl_addUnplaced_mapWF (best.map PlacedItem.packageId) items [] ⟨by simp, by simp⟩)]
    at hfind
  rw [foldl_addUnplaced_isSome (best.map PlacedItem.packageId) tid items []] at hfind
  simp only [mapGet, Option.isSome_none, Bool.false_eq_true, false_or] at hfind
  rw [Iff.comm, hfind]
  simp

theorem mem_expandOne_type (pkg : PackageType) (it : ItemToPack)
    (h : it ∈ expandOne pkg) : it.type = pkg := by
  unfold expandOne at h
  obtain ⟨i, _, hi⟩ := List.mem_map.mp h
  rw [← hi]

theorem mem_expandItems_type (packages : List PackageType) (it : ItemToPack)
    (h : it ∈ expandItems packages) : it.type ∈ packages := by
  unfold expandItems at h
  obtain ⟨p, hp, hit⟩ := List.mem_flatMap.mp h
  rw [mem_expandOne_type p it hit]
  exact hp

theorem expandOne_sublist (packages : List PackageType) (pkg : PackageType)
    (hmem : pkg ∈ packages) : (expandOne pkg).Sublist (expandItems packages) := by
  induction packages with
  | nil => simp at hmem
  | cons p0 rest ih =>
      rw [List.mem_cons] at hmem
      have hdef : expandItems (p0 :: rest) = expandOne p0 ++ expandItems rest := by
        unfold expandItems
        simp
      rw [hdef]
      rcases hmem with h | h
      · subst h
        exact List.sublist_append_left _ _
      · exact (ih h).trans (List.sublist_append_right _ _)

/-- Reduction of the unplaced count over the full expansion to the instances
of the named package, assuming package ids are unique. -/
theorem countP_expandItems_eq (packages : List PackageType) (pkg : PackageType)
    (hmem : pkg ∈ packages) (hpids : (packages.map PackageType.id).Nodup)
    (pids : List String) :
    (expandItems packages).countP (unplacedPred pids pkg.id) =
      (expandOne pkg).countP (fun it => !pids.contains it.id) := by
  induction packages with
  | nil => simp at hmem
  | cons p0 rest ih =>
      have hdef : expandItems (p0 :: rest) = expandOne p0 ++ expandItems rest := by
        unfold expandItems; simp
      rw [List.mem_cons] at hmem
      simp only [List.map_cons, List.nodup_cons] at hpids
      rw [hdef, List.countP_append]
      rcases hmem with h | h
      · subst h
        have h1 : (expandOne pkg).countP (unplacedPred pids pkg.id) =
            (expandOne pkg).countP (fun it => !pids.contains it.id) := by
          refine List.countP_congr ?_
          intro it hit
          have := mem_expandOne_type pkg it hit
          simp [unplacedPred, this]
        have h2 : (expandItems rest).countP (unplacedPred pids pkg.id) = 0 := by
          rw [List.countP_eq_zero]
          intro it hit
          have htype := mem_expandItems_type rest it hit
          have hne : it.type.id ≠ pkg.id := by
            intro heq
            exact hpids.1 (heq ▸ List.mem_map_of_mem PackageType.id htype)
          simp [unplacedPred, hne]
        rw [h1, h2]
        omega
      · have h1 : (expandOne p0).countP (unplacedPred pids pkg.id) = 0 := by
          rw [List.countP_eq_zero]
          intro it hit
          have htype := mem_expandOne_type p0 it hit
          have hne : it.type.id ≠ pkg.id := by
            intro heq
            refine hpids.1 ?_
            rw [htype] at heq
            exact heq ▸ List.mem_map_of_mem PackageType.id h
          simp [unplacedPred, hne]
        rw [h1, ih h hpids.2]
        omega

/-- Counting shared members is symmetric for duplicate-free lists. -/
theorem countP_mem_comm (S P : List String) (hS : S.Nodup) (hP : P.Nodup) :
    P.countP (fun s => decide (s ∈ S)) = S.countP (fun s => decide (s ∈ P)) := by
  rw [List.countP_eq_length_filter, List.countP_eq_length_filter]
  have n1 : (P.filter (fun s => decide (s ∈ S))).Nodup := hP.filter _
  have n2 : (S.filter (fun s => decide (s ∈ P))).Nodup := hS.filter _
  rw [← List.toFinset_card_of_nodup n1, ← List.toFinset_card_of_nodup n2]
  congr 1
  ext x
  simp only [List.mem_toFinset, List.mem_filter, decide_eq_true_eq]
  tauto

theorem length_expandOne_finite (pkg : PackageType) (q : ℕ)
    (hq : pkg.quantity = some q) (h0 : q ≠ 0) : (expandOne pkg).length = q := by
  unfold expandOne
  rw [hq]
  cases q with
  | zero => exact absurd rfl h0
  | succ n => simp

theorem length_expandOne_fill (pkg : PackageType)
    (hq : pkg.quantity = none ∨ pkg.quantity = some 0) :
    (expandOne pkg).length = 1000 := by
  unfold expandOne
  rcases hq with h | h <;> rw [h] <;> simp

/-- Conservation at the reporting step: for a package with unique package ids
and instance ids, the placed count plus the reported unplaced quantity equals
the number of generated instances. -/
theorem conservation_master (container : Dimensions) (packages : List PackageType)
    (pkg : PackageType) (hmem : pkg ∈ packages)
    (hids : ((expandItems packages).map ItemToPack.id).Nodup)
    (hpids : (packages.map PackageType.id).Nodup)
    (dna : List ItemToPack)
    (hdna : dna.Perm ((expandItems packages).take 5000)) :
    placedCountFor pkg (runSimulation container dna) +
      reportedQty
        (computeUnplaced (expandItems packages) (runSimulation container dna))
        pkg.id = (expandOne pkg).length := by
  have hPsub : ((runSimulation container dna).map PlacedItem.packageId).Subperm
      ((expandItems packages).map ItemToPack.id) := by
    refine (runSimulation_ids_subperm container dna).trans ?_
    refine ((hdna.map ItemToPack.id).subperm).trans ?_
    refine List.Sublist.subperm ?_
    exact (List.take_sublist 5000 (expandItems packages)).map ItemToPack.id
  have hPnodup : ((runSimulation container dna).map PlacedItem.packageId).Nodup := by
    obtain ⟨l, hl1, hl2⟩ := hPsub
    exact hl1.nodup_iff.mp (hids.sublist hl2)
  have hSnodup : ((expandOne pkg).map ItemToPack.id).Nodup :=
    hids.sublist ((expandOne_sublist packages pkg hmem).map ItemToPack.id)
  -- abbreviations
  have hplaced : placedCountFor pkg (runSimulation container dna) =
      ((runSimulation container dna).map PlacedItem.packageId).countP
        (fun s => ((expandOne pkg).map ItemToPack.id).contains s) := by
    unfold placedCountFor
    rw [← List.countP_eq_length_filter, List.countP_map]
    rfl
  have hreport : reportedQty
        (computeUnplaced (expandItems packages) (runSimulation container dna))
        pkg.id =
      ((expandOne pkg).map ItemToPack.id).countP
        (fun s => !((runSimulation container dna).map PlacedItem.packageId).contains s) := by
    rw [reportedQty_eq_countP,
      countP_expandItems_eq packages pkg hmem hpids
        ((runSimulation container dna).map PlacedItem.packageId),
      List.countP_map]
    rfl
  rw [hplaced, hreport]
  -- switch both counts to decidable membership and apply symmetry + partition
  have hc1 : ((runSimulation container dna).map PlacedItem.packageId).countP
        (fun s => ((expandOne pkg).map ItemToPack.id).contains s) =
      ((runSimulation container dna).map PlacedItem.packageId).countP
        (fun s => decide (s ∈ (expandOne pkg).map ItemToPack.id)) := by
    refine List.countP_congr ?_
    intro s _
    simp [List.elem_iff]
  have hc2 : ((expandOne pkg).map ItemToPack.id).countP
        (fun s => !((runSimulation container dna).map PlacedItem.packageId).contains s) =
      ((expandOne pkg).map ItemToPack.id).countP
        (fun s =>
          !(decide (s ∈ (runSimulation container dna).map PlacedItem.packageId))) := by
    refine List.countP_congr ?_
    intro s _
    simp [List.elem_iff]
  rw [hc1, hc2,
    countP_mem_comm ((expandOne pkg).map ItemToPack.id)
      ((runSimulation container dna).map PlacedItem.packageId) hSnodup hPnodup]
  have hpart := List.length_eq_countP_add_countP
    (fun s => decide (s ∈ (runSimulation container dna).map PlacedItem.packageId))
    ((expandOne pkg).map ItemToPack.id)
  have hneg : ((expandOne pkg).map ItemToPack.id).countP
        (fun s =>
          !(decide (s ∈ (runSimulation container dna).map PlacedItem.packageId))) =
      ((expandOne pkg).map ItemToPack.id).countP
        (fun s =>
          ¬(decide (s ∈ (runSimulation container dna).map PlacedItem.packageId) = true)) := by
    refine List.countP_congr ?_
    intro s _
    simp
  rw [hneg]
  rw [List.length_map] at hpart
  omega

/-! ### Claim C3: supply conservation -/

/-- C3: for every package type with a finite positive quantity, the number of
its instances among the placed items plus the quantity reported for it in
`unplacedItems` equals the requested quantity exactly.  The hypotheses state
input validity (unique package and instance ids) and that the evaluated
chromosome is a permutation of the (capped) expansion, which covers every
ordering the GA can produce. -/
theorem claim_supply_conservation (container : Dimensions)
    (packages : List PackageType) (pkg : PackageType) (q : ℕ)
    (hq : pkg.quantity = some q) (hq0 : q ≠ 0) (hmem : pkg ∈ packages)
    (hids : ((expandItems packages).map ItemToPack.id).Nodup)
    (hpids : (packages.map PackageType.id).Nodup)
    (dna : List ItemToPack)
    (hdna : dna.Perm ((expandItems packages).take 5000)) :
    placedCountFor pkg (runSimulation container dna) +
      reportedQty
        (computeUnplaced (expandItems packages) (runSimulation container dna))
        pkg.id = q := by
  have h := conservation_master container packages pkg hmem hids hpids dna hdna
  rwa [length_expandOne_finite pkg q hq hq0] at h

/-- Witness for C3: one finite-quantity type (quantity 2) fully placed in a
10×10×10 container; 2 placed + 0 reported = 2. -/
theorem claim_supply_conservation_witness :
    placedCountFor wPkg (runSimulation wContainer ((expandItems [wPkg]).take 5000)) +
      reportedQty
        (computeUnplaced (expandItems [wPkg])
          (runSimulation wContainer ((expandItems [wPkg]).take 5000)))
        wPkg.id = 2 :=
  claim_supply_conservation wContainer [wPkg] wPkg 2 rfl (by decide) (by simp)
    (of_decide_eq_true (by with_unfolding_all rfl))
    (of_decide_eq_true (by with_unfolding_all rfl))
    ((expandItems [wPkg]).take 5000) (List.Perm.refl _)

/-! ### Claim C4: fill-mode types and the unplaced report -/

theorem simLoop_nil_anchors (c : Dimensions) (d : ℕ) (fuel : ℕ)
    (queue : List ItemToPack) (placed : List PlacedItem) :
    simLoop c d fuel [] queue placed = placed := by
  cases fuel with
  | zero => rfl
  | succ n => cases queue <;> rfl

theorem simLoop_nil_queue (c : Dimensions) (d : ℕ) (fuel : ℕ)
    (anchors : List Anchor) (placed : List PlacedItem) :
    simLoop c d fuel anchors [] placed = placed := by
  cases fuel with
  | zero => rfl
  | succ n => cases anchors <;> rfl

theorem findOrient_eq_none (c : Dimensions) (cur : Anchor) (placed : List PlacedItem)
    (os : List Dimensions) (h : ∀ o ∈ os, fits c cur o placed = false) :
    findOrient c cur placed os = none := by
  induction os with
  | nil => rfl
  | cons o rest ih =>
      unfold findOrient
      rw [if_neg (by rw [h o (by simp)]; simp)]
      exact ih (fun o ho => h o (List.mem_cons_of_mem _ ho))

/-- If no item in the queue fits at the origin of an empty packing, the engine
places nothing: the single initial anchor is discarded and the loop ends. -/
theorem runSimulation_eq_nil (c : Dimensions) (items : List ItemToPack)
    (h : ∀ it ∈ items, ∀ o ∈ getOrientations it.type, fits c ⟨0, 0, 0⟩ o [] = false) :
    runSimulation c items = [] := by
  unfold runSimulation
  cases items with
  | nil => exact simLoop_nil_queue _ _ _ _ _
  | cons q0 qrest =>
      have hchoice : findChoice c
          (if (q0 :: qrest).length > 1000 then 200 else (q0 :: qrest).length)
          ⟨0, 0, 0⟩ [] (q0 :: qrest) = none := by
        refine findChoice_eq_none _ _ _ _ _ ?_
        intro it hit
        exact findOrient_eq_none _ _ _ _ (h it hit)
      show simLoop c _ (49999 + 1) [⟨0, 0, 0⟩] (q0 :: qrest) [] = []
      rw [simLoop]
      have hsort : sortAnchors [⟨0, 0, 0⟩] = [⟨0, 0, 0⟩] := rfl
      rw [hsort]
      dsimp only
      rw [hchoice]
      exact simLoop_nil_anchors _ _ _ _ _

/-- The concrete fill-mode package used to refute C4: unbounded demand, box
10×10×10, which cannot fit a 1×1×1 container in any orientation. -/
def fillPkg : PackageType :=
  { id := "F", name := "big", dimensions := ⟨10, 10, 10⟩, quantity := none,
    color := "blue", keepUpright := false }

theorem runSimulation_fillPkg_eq_nil :
    runSimulation ⟨1, 1, 1⟩ (expandItems [fillPkg]) = [] := by
  refine runSimulation_eq_nil _ _ ?_
  intro it hit o ho
  have htype : it.type = fillPkg := by
    have := mem_expandItems_type [fillPkg] it hit
    simpa using this
  rw [htype] at ho
  have horient : getOrientations fillPkg = [⟨10, 10, 10⟩] := by decide
  rw [horient, List.mem_singleton] at ho
  subst ho
  with_unfolding_all rfl

/-- Counterexample to C4 as stated: with a 1×1×1 container and a single
fill-mode (quantity-absent) package of dimensions 10×10×10, the returned
`unplacedItems` does contain an entry for that type — with the full generated
quantity 1000 — even though the claim says fill types never appear there. -/
theorem claim_fill_not_reported_counterexample :
    fillPkg.quantity = none ∧
    reportedQty
      (computeUnplaced (expandItems [fillPkg])
        (runSimulation ⟨1, 1, 1⟩ (expandItems [fillPkg]))) fillPkg.id = 1000 ∧
    (∃ t ∈ computeUnplaced (expandItems [fillPkg])
        (runSimulation ⟨1, 1, 1⟩ (expandItems [fillPkg])), t.id = fillPkg.id) := by
  have hlen : (expandItems [fillPkg]).length = 1000 := by
    have h1 : expandItems [fillPkg] = expandOne fillPkg := by
      unfold expandItems
      simp
    rw [h1, length_expandOne_fill fillPkg (Or.inl rfl)]
  have hall : ∀ it ∈ expandItems [fillPkg],
      unplacedPred
        ((runSimulation ⟨1, 1, 1⟩ (expandItems [fillPkg])).map PlacedItem.packageId)
        fillPkg.id it = true := by
    intro it hit
    have htype : it.type = fillPkg := by
      have := mem_expandItems_type [fillPkg] it hit
      simpa using this
    rw [runSimulation_fillPkg_eq_nil]
    simp [unplacedPred, htype]
  have hcount : (expandItems [fillPkg]).countP
      (unplacedPred
        ((runSimulation ⟨1, 1, 1⟩ (expandItems [fillPkg])).map PlacedItem.packageId)
        fillPkg.id) = 1000 := by
    rw [← hlen]
    exact List.countP_eq_length.mpr hall
  refine ⟨rfl, ?_, ?_⟩
  · rw [reportedQty_eq_countP]
    exact hcount
  · rw [mem_computeUnplaced_iff, hcount]
    omega

/-- C4 amended: a fill-mode type (quantity absent or 0) is expanded to exactly
1000 instances, and an entry for it does appear in `unplacedItems` whenever at
least one of those generated instances is unplaced; its reported quantity is
exactly the number of generated-but-unplaced instances.  Only instances beyond
the internal cap are excluded from the accounting. -/
theorem claim_fill_remainder_reported (packages : List PackageType)
    (pkg : PackageType) (hq : pkg.quantity = none ∨ pkg.quantity = some 0)
    (hmem : pkg ∈ packages) (hpids : (packages.map PackageType.id).Nodup)
    (best : List PlacedItem) :
    (expandOne pkg).length = 1000 ∧
    reportedQty (computeUnplaced (expandItems packages) best) pkg.id =
      (expandOne pkg).countP
        (fun it => !(best.map PlacedItem.packageId).contains it.id) ∧
    ((∃ t ∈ computeUnplaced (expandItems packages) best, t.id = pkg.id) ↔
      0 < reportedQty (computeUnplaced (expandItems packages) best) pkg.id) := by
  refine ⟨length_expandOne_fill pkg hq, ?_, ?_⟩
  · rw [reportedQty_eq_countP]
    exact countP_expandItems_eq packages pkg hmem hpids _
  · rw [reportedQty_eq_countP]
    exact mem_computeUnplaced_iff _ _ _

/-- Witness for the amended C4 at a concrete input: the fill package with an
empty best placement; all 1000 generated instances are reported. -/
theorem claim_fill_remainder_reported_witness :
    (expandOne fillPkg).length = 1000 ∧
    reportedQty (computeUnplaced (expandItems [fillPkg]) []) fillPkg.id =
      (expandOne fillPkg).countP
        (fun it => !(([] : List PlacedItem).map PlacedItem.packageId).contains it.id) ∧
    ((∃ t ∈ computeUnplaced (expandItems [fillPkg]) [], t.id = fillPkg.id) ↔
      0 < reportedQty (computeUnplaced (expandItems [fillPkg]) []) fillPkg.id) :=
  claim_fill_remainder_reported [fillPkg] fillPkg (Or.inl rfl) (by simp) (by decide) []

/-! ### Claim C8: crossover produces a permutation -/

/-- C8: if the two parents are permutations of the same instance set with
pairwise-distinct ids, `breed` returns a permutation of that set again — no
duplicates, no omissions. -/
theorem claim_breed_permutation (p1 p2 : List ItemToPack)
    (hperm : p2.Perm p1) (hids : (p1.map ItemToPack.id).Nodup) :
    (breed p1 p2).Perm p1 := by
  unfold breed
  have hsplit : p1 = p1.take (p1.length / 2) ++ p1.drop (p1.length / 2) :=
    (List.take_append_drop _ p1).symm
  have hperm1 : (p2.filter
      (fun g => ¬ ((p1.take (p1.length / 2)).map ItemToPack.id).contains g.id)).Perm
      ((p1.take (p1.length / 2) ++ p1.drop (p1.length / 2)).filter
        (fun g => ¬ ((p1.take (p1.length / 2)).map ItemToPack.id).contains g.id)) := by
    refine List.Perm.filter _ ?_
    rw [← hsplit]
    exact hperm
  rw [List.filter_append] at hperm1
  have hA : (p1.take (p1.length / 2)).filter
      (fun g => ¬ ((p1.take (p1.length / 2)).map ItemToPack.id).contains g.id) = [] := by
    rw [List.filter_eq_nil_iff]
    intro g hg
    have hmem : g.id ∈ (p1.take (p1.length / 2)).map ItemToPack.id :=
      List.mem_map_of_mem ItemToPack.id hg
    simp only [List.elem_iff, decide_not, Bool.not_eq_true', decide_eq_false_iff_not, not_not]
    exact hmem
  have hdisj : ∀ g ∈ p1.drop (p1.length / 2),
      g.id ∉ (p1.take (p1.length / 2)).map ItemToPack.id := by
    intro g hg
    have := hids
    rw [hsplit, List.map_append, List.nodup_append] at this
    exact fun hmem => this.2.2 hmem (List.mem_map_of_mem ItemToPack.id hg)
  have hC : (p1.drop (p1.length / 2)).filter
      (fun g => ¬ ((p1.take (p1.length / 2)).map ItemToPack.id).contains g.id) =
      p1.drop (p1.length / 2) := by
    rw [List.filter_eq_self]
    intro g hg
    have hnmem := hdisj g hg
    simp only [List.elem_iff, decide_not, Bool.not_eq_true', decide_eq_false_iff_not, not_not,
      Bool.not_eq_false', decide_eq_true_eq]
    simpa using hnmem
  rw [hA, hC] at hperm1
  simp only [List.nil_append] at hperm1
  have hfin := List.Perm.append_left (p1.take (p1.length / 2)) hperm1
  rwa [List.take_append_drop] at hfin

/-- Witness for C8 at concrete parents: reversed order crossed with the
original. -/
theorem claim_breed_permutation_witness :
    (wItems.reverse.Perm wItems) ∧ ((wItems.map ItemToPack.id).Nodup) ∧
    (breed wItems wItems.reverse).Perm wItems := by
  have h1 : wItems.reverse.Perm wItems := of_decide_eq_true (by with_unfolding_all rfl)
  have h2 : (wItems.map ItemToPack.id).Nodup := of_decide_eq_true (by with_unfolding_all rfl)
  exact ⟨h1, h2, claim_breed_permutation wItems wItems.reverse h1 h2⟩

/-! ### Claim C9: coordinator progress is monotonically non-decreasing

Model of the coordinator's progress handling (`packingService.ts` lines
274-281): each worker posts `{gen, totalGenerations, strategyId}` with `gen`
running 0, 1, …, totalGenerations-1 in order (worker line 226); the
coordinator keeps `progressMap[strategyId] = (gen/totalGenerations)*100` and
reports `Math.round` of the average over `maxWorkers` entries. -/

structure ProgEvent where
  strategyId : ℕ
  gen : ℕ
deriving DecidableEq, Repr

/-- JS `Math.round` (round half up). -/
def jsRound (q : ℚ) : ℤ := ⌊q + 1/2⌋

/-- `(gen / totalGenerations) * 100` (coordinator line 278). -/
def progressValue (total gen : ℕ) : ℚ := ((gen : ℚ) / (total : ℚ)) * 100

/-- `progressMap[strategyId] = …` (coordinator line 278). -/
def stepProgress (total : ℕ) (pm : List ℚ) (e : ProgEvent) : List ℚ :=
  pm.set e.strategyId (progressValue total e.gen)

/-- `avgProgress = Math.round(progressMap.reduce((a,b) => a+b, 0) / maxWorkers)`
(coordinator line 279). -/
def avgReport (w : ℕ) (pm : List ℚ) : ℤ := jsRound (pm.sum / (w : ℚ))

/-- The sequence of percentages reported while processing a list of progress
events from state `pm`. -/
def reportsFrom (total w : ℕ) (pm : List ℚ) : List ProgEvent → List ℤ
  | [] => []
  | e :: es =>
      avgReport w (stepProgress total pm e) ::
        reportsFrom total w (stepProgress total pm e) es

/-- All percentages reported in one coordinated run (`progressMap` starts as
`new Array(maxWorkers).fill(0)`, coordinator line 267). -/
def coordinatorReports (total w : ℕ) (events : List ProgEvent) : List ℤ :=
  reportsFrom total w (List.replicate w 0) events

/-- The progress trace one worker emits: `gen = 0, 1, …, total-1` in order
(worker lines 225-226). -/
def workerTrace (total sid : ℕ) : List ProgEvent :=
  (List.range total).map (fun g => ⟨sid, g⟩)

theorem progressValue_nonneg (total gen : ℕ) : 0 ≤ progressValue total gen := by
  unfold progressValue
  positivity

theorem progressValue_mono (total g1 g2 : ℕ) (h : g1 ≤ g2) :
    progressValue total g1 ≤ progressValue total g2 := by
  unfold progressValue
  cases total with
  | zero => simp
  | succ n =>
      have h1 : ((g1 : ℚ)) ≤ (g2 : ℚ) := by exact_mod_cast h
      have h2 : (0 : ℚ) < ((n + 1 : ℕ) : ℚ) := by positivity
      have := div_le_div_of_nonneg_right h1 h2.le
      nlinarith [this]

theorem sum_le_sum_set (pm : List ℚ) (i : ℕ) (v : ℚ)
    (h : ∀ (hi : i < pm.length), pm.get ⟨i, hi⟩ ≤ v) :
    pm.sum ≤ (pm.set i v).sum := by
  induction pm generalizing i with
  | nil => simp
  | cons a rest ih =>
      cases i with
      | zero =>
          have ha := h (by simp)
          simp only [List.get] at ha
          simp only [List.set, List.sum_cons]
          linarith
      | succ n =>
          simp only [List.set, List.sum_cons]
          have := ih n (fun hi => h (by simpa using Nat.succ_lt_succ hi))
          linarith

theorem avgReport_mono (w : ℕ) (pm pm' : List ℚ) (h : pm.sum ≤ pm'.sum) :
    avgReport w pm ≤ avgReport w pm' := by
  unfold avgReport jsRound
  refine Int.floor_mono ?_
  have hdiv : pm.sum / (w : ℚ) ≤ pm'.sum / (w : ℚ) := by
    cases w with
    | zero => simp
    | succ n =>
        have hw : (0 : ℚ) < ((n + 1 : ℕ) : ℚ) := by positivity
        exact div_le_div_of_nonneg_right h hw.le
  linarith

theorem list_get_set_self' (pm : List ℚ) (i j : ℕ) (v : ℚ) (hij : j = i)
    (hj : j < (pm.set i v).length) : (pm.set i v).get ⟨j, hj⟩ = v := by
  subst hij
  rw [List.get_eq_getElem]
  exact List.getElem_set_self (by simpa using hj)

theorem list_get_set_ne' (pm : List ℚ) (i j : ℕ) (v : ℚ) (hij : i ≠ j)
    (hj : j < (pm.set i v).length) :
    (pm.set i v).get ⟨j, hj⟩ = pm.get ⟨j, by simpa using hj⟩ := by
  rw [List.get_eq_getElem, List.get_eq_getElem]
  exact List.getElem_set_ne hij _

theorem reportsFrom_chain (total w : ℕ) :
    ∀ (es : List ProgEvent) (pm : List ℚ),
      (∀ e ∈ es, ∀ (hi : e.strategyId < pm.length),
        pm.get ⟨e.strategyId, hi⟩ ≤ progressValue total e.gen) →
      es.Pairwise (fun a b => a.strategyId = b.strategyId → a.gen ≤ b.gen) →
      List.Chain' (· ≤ ·) (avgReport w pm :: reportsFrom total w pm es) := by
  intro es
  induction es with
  | nil => intro pm _ _; simp [reportsFrom]
  | cons e rest ih =>
      intro pm hinv hpw
      rw [List.pairwise_cons] at hpw
      have hstep : pm.sum ≤ (stepProgress total pm e).sum := by
        unfold stepProgress
        exact sum_le_sum_set pm e.strategyId (progressValue total e.gen)
          (fun hi => hinv e (by simp) hi)
      have hinv' : ∀ e' ∈ rest, ∀ (hi : e'.strategyId < (stepProgress total pm e).length),
          (stepProgress total pm e).get ⟨e'.strategyId, hi⟩ ≤
            progressValue total e'.gen := by
        intro e' he' hi
        have hlen : (stepProgress total pm e).length = pm.length := by
          unfold stepProgress
          simp
        by_cases hs : e'.strategyId = e.strategyId
        · have hval : (stepProgress total pm e).get ⟨e'.strategyId, hi⟩ =
              progressValue total e.gen :=
            list_get_set_self' pm e.strategyId e'.strategyId _ hs hi
          rw [hval]
          exact progressValue_mono total e.gen e'.gen (hpw.1 e' he' hs.symm)
        · have hval : (stepProgress total pm e).get ⟨e'.strategyId, hi⟩ =
              pm.get ⟨e'.strategyId, by rwa [← hlen]⟩ :=
            list_get_set_ne' pm e.strategyId e'.strategyId _ (fun hh => hs hh.symm) hi
          rw [hval]
          exact hinv e' (List.mem_cons_of_mem _ he') _
      have hchain := ih (stepProgress total pm e) hinv' hpw.2
      unfold reportsFrom
      exact List.Chain'.cons (avgReport_mono w pm _ hstep) hchain

theorem pairwise_of_filter_traces (events : List ProgEvent)
    (h : ∀ s, (events.filter (fun e => e.strategyId = s)).Pairwise
      (fun a b => a.gen ≤ b.gen)) :
    events.Pairwise (fun a b => a.strategyId = b.strategyId → a.gen ≤ b.gen) := by
  induction events with
  | nil => constructor
  | cons e es ih =>
      constructor
      · intro e' he' hsid
        have hf := h e.strategyId
        rw [List.filter_cons_of_pos (by simp)] at hf
        rw [List.pairwise_cons] at hf
        refine hf.1 e' ?_
        exact List.mem_filter.mpr ⟨he', by simp [← hsid]⟩
      · refine ih ?_
        intro s
        have hf := h s
        by_cases hs : e.strategyId = s
        · rw [List.filter_cons_of_pos (by simp [hs])] at hf
          exact (List.pairwise_cons.mp hf).2
        · rwa [List.filter_cons_of_neg (by simp [hs])] at hf

/-- C9: within one coordinated run, the numeric completion percentages reported
through the progress callback are monotonically non-decreasing, provided the
observed event sequence is an interleaving of the workers' traces (each
worker's events appear in their posted order). -/
theorem claim_progress_monotone (total w : ℕ) (events : List ProgEvent)
    (hinter : ∀ s, (events.filter (fun e => e.strategyId = s)).Sublist
      (workerTrace total s)) :
    (coordinatorReports total w events).Pairwise (· ≤ ·) := by
  have htrace : ∀ s, (workerTrace total s).Pairwise (fun a b => a.gen < b.gen) := by
    intro s
    unfold workerTrace
    rw [List.pairwise_map]
    exact List.pairwise_lt_range total
  have hfilt : ∀ s, (events.filter (fun e => e.strategyId = s)).Pairwise
      (fun a b => a.gen ≤ b.gen) := by
    intro s
    exact ((htrace s).sublist (hinter s)).imp le_of_lt
  have hpw := pairwise_of_filter_traces events hfilt
  have hinv : ∀ e ∈ events, ∀ (hi : e.strategyId < (List.replicate w (0 : ℚ)).length),
      (List.replicate w (0 : ℚ)).get ⟨e.strategyId, hi⟩ ≤
        progressValue total e.gen := by
    intro e _ hi
    have : (List.replicate w (0 : ℚ)).get ⟨e.strategyId, hi⟩ = 0 :=
      List.get_replicate _ _
    rw [this]
    exact progressValue_nonneg total e.gen
  have hchain := reportsFrom_chain total w events (List.replicate w 0) hinv hpw
  have htail := hchain.tail
  unfold coordinatorReports
  exact List.chain'_iff_pairwise.mp htail

/-- Witness for C9: two workers with totalGenerations 8 whose progress events
interleave. -/
theorem claim_progress_monotone_witness :
    (∀ s, (([⟨0, 0⟩, ⟨1, 0⟩, ⟨1, 1⟩, ⟨0, 1⟩] : List ProgEvent).filter
      (fun e => e.strategyId = s)).Sublist (workerTrace 8 s)) ∧
    (coordinatorReports 8 2 [⟨0, 0⟩, ⟨1, 0⟩, ⟨1, 1⟩, ⟨0, 1⟩]).Pairwise (· ≤ ·) := by
  have hinter : ∀ s, (([⟨0, 0⟩, ⟨1, 0⟩, ⟨1, 1⟩, ⟨0, 1⟩] : List ProgEvent).filter
      (fun e => e.strategyId = s)).Sublist (workerTrace 8 s) := by
    intro s
    match s with
    | 0 => decide
    | 1 => decide
    | n + 2 =>
        have hnil : ([⟨0, 0⟩, ⟨1, 0⟩, ⟨1, 1⟩, ⟨0, 1⟩] : List ProgEvent).filter
            (fun e => e.strategyId = n + 2) = [] := by
          rw [List.filter_eq_nil_iff]
          intro e he
          fin_cases he <;> simp <;> omega
        rw [hnil]
        exact List.nil_sublist _
  exact ⟨hinter, claim_progress_monotone 8 2 _ hinter⟩

end Packing
